import Mathlib

/-!
Shallow embedding of the core of the DecentralizedWeb blockchain node: the
transaction accounting contract, page validation, block serialization bound,
the multi-branch chain store (longest branch, prune, add), the miner loop and
the peer-registry gossip. Machine floats (f32) from the sources are modelled
exactly over the rationals; opaque cryptographic byte arrays are modelled as
naturals with decidable equality. Definitions marked `Modelled from the spec`
embed repository code whose source file is not part of the analysed tree.
-/

/-- Opaque 32-byte identifier (config::Hash, a `[u8; 32]` value). Its byte
content never matters below, only equality, so it is modelled as a natural. -/
abbrev Hash := Nat

/-- Opaque 256-byte public key or signature value (config::Signature). -/
abbrev Signature := Nat

/-- config::HASH_LEN: byte length of a hash. -/
def HASH_LEN : Nat := 32

/-- config::PUB_KEY_LEN: byte length of a public key or signature. -/
def PUB_KEY_LEN : Nat := 256

/-- Modelled from the spec: config::PAGE_CHUNK_SIZE is not under src; the spec
describes a page's cost as its length in fractional megabytes, so one content
chunk is 1024 * 1024 bytes. -/
def PAGE_CHUNK_SIZE : Nat := 1024 * 1024

/-- wallet::WalletStatus: running balance (an f32 in the source, modelled as a
rational) and the highest observed transaction id from this wallet. -/
structure WalletStatus where
  balance : Rat
  max_id : Nat
  deriving DecidableEq

/-- transaction::page::Page (src/lib/src/transaction/page.rs, lines 9-18). -/
structure Page where
  id : Nat
  site : Hash
  data_hashes : List Hash
  data_length : Nat
  fee : Rat
  deriving DecidableEq

/-- Page::cost (src/lib/src/transaction/page.rs, lines 53-57): bytes used into
megabytes; the f32 division is modelled exactly over the rationals. -/
def Page.cost (p : Page) : Rat :=
  (p.data_length : Rat) / (PAGE_CHUNK_SIZE : Rat)

/-- Modelled from the spec: transaction::Input is not under src. One funding
source of a transaction: get_address() gives the owning address, amount the
value paid in. -/
structure Input where
  address : Hash
  amount : Rat
  deriving DecidableEq

/-- Modelled from the spec: wallet::public_wallet::WalletValidationResult is
not under src; verify returns one of Ok, BadKey, BadSignature (spec 4.1). -/
inductive WalletValidationResult where
  | Ok
  | BadKey
  | BadSignature
  deriving DecidableEq

/-- transaction::TransactionValidationResult (src/lib/src/transaction.rs,
lines 14-20). -/
inductive TransactionValidationResult where
  | Ok
  | Negative
  | Wallet (result : WalletValidationResult)
  deriving DecidableEq

/-- TransactionContent::validate for Page (src/lib/src/transaction/page.rs,
lines 82-100). The source returns Result over a boxed error but no error path
is reachable, so the result is returned directly; the source locals
total_input and expected_hash_count are inlined. -/
def Page.validate (p : Page) (inputs : List Input) : TransactionValidationResult :=
  if ¬ inputs.any (fun x => x.address == p.site) then .Negative
  else if inputs.foldl (fun acc x => acc + x.amount) 0 ≠ p.cost + p.fee then .Negative
  else if p.data_hashes.length ≠ (⌈p.cost⌉).toNat then .Negative
  else .Ok

/-- TransactionContent::update_wallet_status for Page
(src/lib/src/transaction/page.rs, lines 102-121): the deduction, the replay
check and the watermark update all run only when from_amount > 0. -/
def Page.update_wallet_status (p : Page) (_address : Hash) (status : WalletStatus)
    (from_amount : Rat) (is_block_winner : Bool) : Option WalletStatus :=
  let afterSender : Option WalletStatus :=
    if from_amount > 0 then
      let deducted : WalletStatus := { status with balance := status.balance - from_amount }
      if p.id ≤ deducted.max_id then none
      else some { deducted with max_id := p.id }
    else some status
  afterSender.map (fun s =>
    if is_block_winner then { s with balance := s.balance + p.fee } else s)

/-- Modelled from the spec: transaction::transfer::Transfer is not under src.
A Transfer carries the per-sender id, the sender (as its derived address), the
recipient, the amount and the fee. -/
structure Transfer where
  id : Nat
  from_address : Hash
  to_address : Hash
  amount : Rat
  fee : Rat
  deriving DecidableEq

/-- Modelled from the spec (4.2): the Transfer update_wallet_status fold is
not under src. If address is the sender: deduct amount + fee, fail when
id ≤ max_id, else set max_id := id. If address is the recipient: add amount.
If address won the block: add the fee. -/
def Transfer.update_wallet_status (t : Transfer) (address : Hash)
    (status : WalletStatus) (is_block_winner : Bool) : Option WalletStatus :=
  let afterSender : Option WalletStatus :=
    if address = t.from_address then
      let deducted : WalletStatus := { status with balance := status.balance - (t.amount + t.fee) }
      if t.id ≤ deducted.max_id then none
      else some { deducted with max_id := t.id }
    else some status
  afterSender.map (fun s =>
    let s1 := if address = t.to_address then { s with balance := s.balance + t.amount } else s
    if is_block_winner then { s1 with balance := s1.balance + t.fee } else s1)

/-- Modelled from the spec: the generic wrapper computing the sender deduction
before delegating to Page::update_wallet_status is not under src; per spec 4.2
the sender of a Page is its site, charged cost + fee; every other address is
charged nothing. -/
def Page.update (p : Page) (address : Hash) (status : WalletStatus)
    (is_block_winner : Bool) : Option WalletStatus :=
  p.update_wallet_status address status
    (if address = p.site then p.cost + p.fee else 0) is_block_winner

namespace Lib

/-- block::Block of the lib crate, restricted to the fields that
Block::update_wallet_status (src/lib/src/block/transactions.rs) reads: the
reward recipient (header field raward_to, spelling as in the source), the
transfer list and the page list. -/
structure Block where
  raward_to : Hash
  transfers : List Transfer
  pages : List Page
  deriving DecidableEq

/-- Block::calculate_reward (src/src/block/mod.rs, lines 61-65): the constant
block reward 10.0. -/
def Block.calculate_reward (_b : Block) : Rat := 10

/-- The reward credit at the head of Block::update_wallet_status
(src/lib/src/block/transactions.rs, lines 52-54). -/
def Block.rewardApplied (b : Block) (address : Hash) (status : WalletStatus) : WalletStatus :=
  if b.raward_to = address then { status with balance := status.balance + b.calculate_reward }
  else status

/-- Block::update_wallet_status (src/lib/src/block/transactions.rs, lines
49-77): credit the reward, then fold the transfers and then the pages,
aborting with none at the first failing transaction. -/
def Block.update_wallet_status (b : Block) (address : Hash) (status : WalletStatus) :
    Option WalletStatus :=
  match b.transfers.foldlM
      (fun s t => t.update_wallet_status address s (b.raward_to == address))
      (b.rewardApplied address status) with
  | none => none
  | some s =>
    b.pages.foldlM (fun s p => p.update address s (b.raward_to == address)) s

/-- Folding a list of blocks over the initial zero wallet state (spec 3,
WalletStatus lifecycle). -/
def foldWallet (blocks : List Block) (address : Hash) : Option WalletStatus :=
  blocks.foldlM (fun s b => b.update_wallet_status address s) { balance := 0, max_id := 0 }

end Lib

/-- transaction::TransactionHeader (src/lib/src/transaction.rs, lines 37-48).
The field named from in the source is a Lean keyword and is rendered
from_key. -/
structure TransactionHeader where
  id : Nat
  from_key : Signature
  to_address : Hash
  amount : Rat
  transaction_fee : Rat
  deriving DecidableEq

/-- transaction::Transaction (src/lib/src/transaction.rs, lines 50-59); e is
the 3-byte public exponent, modelled opaquely. -/
structure Transaction where
  header : TransactionHeader
  signature : Signature
  e : Nat
  deriving DecidableEq

/-- Transaction::validate_content (src/lib/src/transaction.rs, lines 98-115).
The signature verification (PublicWallet::verify over the header hash; the
wallet sources are not under src) is the oracle verify, modelled from the
spec: it returns Ok, BadKey or BadSignature. -/
def Transaction.validate_content (verify : Transaction → WalletValidationResult)
    (t : Transaction) : TransactionValidationResult :=
  if t.header.amount < 0 then .Negative
  else if t.header.transaction_fee < 0 then .Negative
  else
    match verify t with
    | .Ok => .Ok
    | result => .Wallet result

/-- Byte length of the bincode encoding of a TransactionHeader: id is a u32
(4 bytes), from a 256-byte array, to a 32-byte hash, amount and
transaction_fee f32 values (4 bytes each). bincode uses fixed-width
little-endian scalars and u64 length prefixes for collections. -/
def TransactionHeader.serializedSize (_h : TransactionHeader) : Nat :=
  4 + PUB_KEY_LEN + HASH_LEN + 4 + 4

/-- Byte length of the bincode encoding of a Transaction: header, 256-byte
signature and the 3-byte exponent. -/
def Transaction.serializedSize (t : Transaction) : Nat :=
  t.header.serializedSize + PUB_KEY_LEN + 3

/-- Byte length of the bincode encoding of a Page: u32 id, 32-byte site,
length-prefixed hash list, u32 data_length, f32 fee. -/
def Page.serializedSize (p : Page) : Nat :=
  4 + HASH_LEN + (8 + HASH_LEN * p.data_hashes.length) + 4 + 4

namespace Chain

/-- Modelled from the spec: block::target::Target (target.rs is not under
src) is a 256-bit integer serialized as 32 bytes; modelled opaquely. -/
abbrev Target := Nat

/-- block::Block (src/src/block/mod.rs, lines 24-36). The u64 pow nonce and
the u128 timestamp are modelled as naturals. -/
structure Block where
  prev_hash : Hash
  block_id : Nat
  raward_to : Hash
  pages : List Page
  transactions : List Transaction
  timestamp : Nat
  target : Target
  pow : Nat
  deriving DecidableEq

/-- BLOCK_SIZE (src/src/block/mod.rs, line 22): 16 MiB. -/
def BLOCK_SIZE : Nat := 16 * 1024 * 1024

/-- error::Error (error.rs is not under src): the constructors the block and
chain sources construct. -/
inductive Error where
  | BlockTooLarge
  | DuplicateBlock
  | NoValidBranches
  | Other (msg : String)
  deriving DecidableEq

/-- Byte length of the bincode encoding of a Block, field by field: 32-byte
prev_hash, u64 block_id, 32-byte raward_to, length-prefixed page and
transaction lists, u128 timestamp, 32-byte target, u64 pow. -/
def Block.serializedSize (b : Block) : Nat :=
  HASH_LEN + 8 + HASH_LEN
    + (8 + (b.pages.map Page.serializedSize).sum)
    + (8 + (b.transactions.map Transaction.serializedSize).sum)
    + 16 + HASH_LEN + 8

/-- Block::as_bytes (src/src/block/mod.rs, lines 126-139). bincode
serialization of an in-memory Block cannot fail, so only the size bound
remains; the Ok payload is abstracted to its byte length. -/
def Block.as_bytes (b : Block) : Except Error Nat :=
  if b.serializedSize > BLOCK_SIZE then .error .BlockTooLarge
  else .ok b.serializedSize

/-- chain::branch::BlockChainBranch (branch.rs is not under src). The chain
code reads its directory path and top_index; its stored-block lookup, the
success of the branch-local add, and the success of Block::validate against
it (validate.rs is also not under src) are modelled as oracle fields. -/
structure BlockChainBranch where
  path : String
  top_index : Nat
  blockAt : Nat → Option Block
  addOk : Block → Bool
  validateOk : Block → Bool

/-- chain::BlockChain (src/src/block/chain/mod.rs, lines 12-16): the branch
list in creation order (new branches are pushed at the end); the root
directory is omitted. -/
structure BlockChain where
  branches : List BlockChainBranch

/-- The loop of BlockChain::longest_branch (src/src/block/chain/mod.rs, lines
89-112): scan the branches left to right remembering the index whenever
top_index is at least the running maximum, which starts at 0. -/
def longestLoop : List BlockChainBranch → Nat → Option Nat → Nat → Option Nat × Nat
  | [], _, max_branch_index, max_top => (max_branch_index, max_top)
  | b :: rest, i, max_branch_index, max_top =>
    if max_top ≤ b.top_index then longestLoop rest (i + 1) (some i) b.top_index
    else longestLoop rest (i + 1) max_branch_index max_top

/-- The position of the branch BlockChain::longest_branch returns; none only
when no branch exists (the source then creates a fresh empty branch). -/
def longestBranchIndex (branches : List BlockChainBranch) : Option Nat :=
  (longestLoop branches 0 none 0).1

/-- The top_index of the longest branch: the greatest top_index of any branch
(0 when none exist), the value BlockChain::prune_branches reads. -/
def longestTop (branches : List BlockChainBranch) : Nat :=
  branches.foldl (fun m b => max m b.top_index) 0

/-- Remove the first branch whose path is p. The source removes the branch at
the first position comparing equal to the pruned one; a branch is identified
by its unique on-disk directory name. -/
def removeFirst : List BlockChainBranch → String → List BlockChainBranch
  | [], _ => []
  | b :: rest, p => if b.path = p then rest else b :: removeFirst rest p

/-- BlockChain::prune_branches (src/src/block/chain/mod.rs, lines 48-73):
returns the remaining branches and the directory paths removed from disk.
When no branch exists the source first creates a fresh empty branch; that
case is outside the model and the theorems below assume a branch exists. -/
def BlockChain.prune_branches (c : BlockChain) : BlockChain × List String :=
  let longest_branch_top := longestTop c.branches
  if longest_branch_top ≤ 10 then (c, [])
  else
    let branches_to_remove :=
      c.branches.filter (fun b => decide (b.top_index < longest_branch_top - 10))
    (⟨branches_to_remove.foldl (fun bs b => removeFirst bs b.path) c.branches⟩,
      branches_to_remove.map (fun b => b.path))

/-- Outcome of BlockChain::add: Ok, Err(DuplicateBlock), Err(NoValidBranches)
or a fork recording the position of the branch remembered as
valid_to_branch_from (the reorganization done afterwards by
BlockChain::branch is abstracted away). -/
inductive AddOutcome where
  | ok
  | duplicate
  | noValidBranches
  | fork (idx : Nat)
  deriving DecidableEq

/-- The branch loop of BlockChain::add (src/src/block/chain/mod.rs, lines
156-189) carrying the absolute position of the current branch. Per branch:
when block_id = top_index + 1 a successful branch-local add returns Ok and a
failed one falls through to the next branch; branches with top_index below
block_id are skipped; otherwise the stored block at block_id is fetched (the
source unwraps, so a missing block panics, modelled as none), an equal stored
block returns Err(DuplicateBlock), and a branch the block validates against
stops the scan as the fork candidate. -/
def addLoop (block : Block) : List BlockChainBranch → Nat → Option AddOutcome
  | [], _ => some .noValidBranches
  | b :: rest, i =>
    if block.block_id = b.top_index + 1 ∧ b.addOk block = true then some .ok
    else if b.top_index < block.block_id then addLoop block rest (i + 1)
    else
      match b.blockAt block.block_id with
      | none => none
      | some stored =>
        if stored = block then some .duplicate
        else if b.validateOk block = true then some (.fork i)
        else addLoop block rest (i + 1)

/-- BlockChain::add (src/src/block/chain/mod.rs, lines 156-189). -/
def BlockChain.add (c : BlockChain) (block : Block) : Option AddOutcome :=
  addLoop block c.branches 0

/-- What a single branch contributes to the add scan: accept an append, skip,
report a duplicate, become the fork candidate, or panic on a missing stored
block. -/
inductive AddStep where
  | next
  | accept
  | dup
  | forkHere
  | panic
  deriving DecidableEq

/-- The decision a single branch makes inside the loop of BlockChain::add,
with the same conditions in the same order as addLoop. -/
def addStep (block : Block) (b : BlockChainBranch) : AddStep :=
  if block.block_id = b.top_index + 1 ∧ b.addOk block = true then .accept
  else if b.top_index < block.block_id then .next
  else
    match b.blockAt block.block_id with
    | none => .panic
    | some stored =>
      if stored = block then .dup
      else if b.validateOk block = true then .forkHere
      else .next

/-- The loop result a deciding step at absolute position i produces; the
value at next is immaterial since the scan continues there. -/
def stepResult : AddStep → Nat → Option AddOutcome
  | .accept, _ => some .ok
  | .dup, _ => some .duplicate
  | .forkHere, i => some (.fork i)
  | .panic, _ => none
  | .next, _ => some .noValidBranches

/-- Every branch before position k lets the add scan continue. -/
def prefixNext (block : Block) (branches : List BlockChainBranch) (k : Nat) : Prop :=
  ∀ j b, j < k → branches[j]? = some b → addStep block b = .next

/-- miner::mine_block (src/src/miner.rs, lines 7-14). Block::validate_pow
(validate.rs is not under src) is the oracle pv, modelled from the spec:
hash(block) ≤ target. The unbounded source loop is given fuel; the theorems
below supply enough fuel to reach the least valid nonce. -/
def mine_block (pv : Block → Bool) : Nat → Block → Block
  | fuel, block =>
    if pv block then block
    else
      match fuel with
      | 0 => block
      | f + 1 => mine_block pv f { block with pow := block.pow + 1 }

/-- The block with only its pow field replaced. -/
def Block.setPow (b : Block) (p : Nat) : Block := { b with pow := p }

end Chain

namespace Net

/-- node::network::Packet (src/src/node/network.rs, lines 18-26). -/
inductive Packet where
  | KnownNode (address : String)
  | OnConnected (port : Nat)
  | Block (b : Chain.Block)
  | BlockRequest (id : Nat)
  | Ping
  deriving DecidableEq

/-- node::network::Connection (src/src/node/network.rs, lines 193-199),
restricted to the field the gossip logic reads: the public address learned
from OnConnected (none until the peer is confirmed); the socket, receiver
thread and sender handle are I/O state outside the model. -/
structure Connection where
  public_address : Option String
  deriving DecidableEq

/-- node::network::ConnectionManager (src/src/node/network.rs, lines
246-255), restricted to the peer registry: known_nodes as a duplicate-free
list (a HashSet in the source) and the connection table as an association
list keyed by socket address (a HashMap); port, channel and logger omitted. -/
structure ConnectionManager where
  known_nodes : List String
  connections : List (String × Connection)
  deriving DecidableEq

/-- ConnectionManager::send_to (src/src/node/network.rs, lines 372-390): send
the packet to every connection with a known public_address whose key
satisfies the predicate; the (receiver, packet) sends performed are
returned. -/
def ConnectionManager.send_to (m : ConnectionManager) (packet : Packet)
    (predicate : String → Bool) : List (String × Packet) :=
  (m.connections.filter (fun ac => ac.2.public_address.isSome && predicate ac.1)).map
    (fun ac => (ac.1, packet))

/-- ConnectionManager::register_node (src/src/node/network.rs, lines
295-306): when the address is new, record it and, when an origin is given,
forward KnownNode to every confirmed peer other than the origin; returns the
new state and the sends performed. -/
def ConnectionManager.register_node (m : ConnectionManager) (address : String)
    (from_node : Option String) : ConnectionManager × List (String × Packet) :=
  if address ∈ m.known_nodes then (m, [])
  else
    ({ m with known_nodes := address :: m.known_nodes },
      match from_node with
      | some origin => m.send_to (.KnownNode address) (fun addr => addr != origin)
      | none => [])

end Net

/-- A Page whose sender pays nothing: empty content and zero fee. -/
def C1demoPage : Page := { id := 0, site := 1, data_hashes := [], data_length := 0, fee := 0 }

/-- A zero wallet state. -/
def C1demoStatus : WalletStatus := { balance := 0, max_id := 0 }

/-- A Transfer of 4 with fee 1 from address 5 to address 6, id 1. -/
def C1demoTransfer : Transfer :=
  { id := 1, from_address := 5, to_address := 6, amount := 4, fee := 1 }

/-- A one-chunk Page of exactly one megabyte, zero fee, id 1, site 7. -/
def C1demoPage2 : Page :=
  { id := 1, site := 7, data_hashes := [3], data_length := 1048576, fee := 0 }

/-- A Transfer whose id 0 replays the initial watermark of its sender 5. -/
def C1demoFailT : Transfer :=
  { id := 0, from_address := 5, to_address := 6, amount := 1, fee := 0 }

/-- A block containing only the replayed transfer. -/
def C1demoBlock : Lib.Block := { raward_to := 9, transfers := [C1demoFailT], pages := [] }

/-- A block at id 3 with empty transaction lists. -/
def C2block : Chain.Block :=
  { prev_hash := 0, block_id := 3, raward_to := 0, pages := [], transactions := [],
    timestamp := 0, target := 0, pow := 0 }

/-- A branch already holding C2block at id 3 (top_index 5); appending and
validating both fail against it. -/
def C2branchDup : Chain.BlockChainBranch :=
  { path := "d", top_index := 5, blockAt := fun _ => some C2block,
    addOk := fun _ => false, validateOk := fun _ => false }

/-- A branch with top_index 2 that accepts the append of C2block. -/
def C2branchApp : Chain.BlockChainBranch :=
  { path := "a", top_index := 2, blockAt := fun _ => none,
    addOk := fun _ => true, validateOk := fun _ => false }

/-- A chain whose first branch holds a duplicate of C2block while the second
would accept appending it. -/
def C2chain : Chain.BlockChain := { branches := [C2branchDup, C2branchApp] }

/-- First of two branches with equal top_index 7. -/
def C3branchA : Chain.BlockChainBranch :=
  { path := "a", top_index := 7, blockAt := fun _ => none,
    addOk := fun _ => false, validateOk := fun _ => false }

/-- Second of two branches with equal top_index 7. -/
def C3branchB : Chain.BlockChainBranch :=
  { path := "b", top_index := 7, blockAt := fun _ => none,
    addOk := fun _ => false, validateOk := fun _ => false }

/-- A chain with two branches tied at top_index 7. -/
def C3chain : Chain.BlockChain := { branches := [C3branchA, C3branchB] }

/-- A single branch with top_index 4. -/
def C3demoBranch : Chain.BlockChainBranch :=
  { path := "w", top_index := 4, blockAt := fun _ => none,
    addOk := fun _ => false, validateOk := fun _ => false }

/-- A one-branch chain. -/
def C3demoChain : Chain.BlockChain := { branches := [C3demoBranch] }

/-- A one-chunk Page of one megabyte with zero fee owned by site 1. -/
def C4page : Page := { id := 0, site := 1, data_hashes := [0], data_length := 1048576, fee := 0 }

/-- Two inputs, both owned by site 1, together paying exactly cost + fee. -/
def C4inputs : List Input := [{ address := 1, amount := 1/2 }, { address := 1, amount := 1/2 }]

/-- A branch at top_index 30. -/
def C5branchX : Chain.BlockChainBranch :=
  { path := "x", top_index := 30, blockAt := fun _ => none,
    addOk := fun _ => false, validateOk := fun _ => false }

/-- A branch at top_index 25, within the prune window of 30. -/
def C5branchY : Chain.BlockChainBranch :=
  { path := "y", top_index := 25, blockAt := fun _ => none,
    addOk := fun _ => false, validateOk := fun _ => false }

/-- A branch at top_index 5, more than 10 behind the longest. -/
def C5branchZ : Chain.BlockChainBranch :=
  { path := "z", top_index := 5, blockAt := fun _ => none,
    addOk := fun _ => false, validateOk := fun _ => false }

/-- A chain with branches at top 30, 25 and 5. -/
def C5chain : Chain.BlockChain := { branches := [C5branchX, C5branchY, C5branchZ] }

/-- A verification oracle rejecting every signature. -/
def C7verify : Transaction → WalletValidationResult := fun _ => .BadSignature

/-- A Transfer transaction with the negative amount -1.6 of the spec's
end-to-end scenario 5. -/
def C7tx : Transaction :=
  { header := { id := 1, from_key := 0, to_address := 0, amount := -(8/5), transaction_fee := 0 },
    signature := 0, e := 0 }

/-- A block won by address 5 with no transactions. -/
def C8block : Lib.Block := { raward_to := 5, transfers := [], pages := [] }

/-- A manager knowing one address, with two confirmed peers (one of them the
origin) and one unconfirmed peer. -/
def C9manager : Net.ConnectionManager :=
  { known_nodes := ["k"],
    connections :=
      [("p1", { public_address := some "P1" }),
       ("p2", { public_address := none }),
       ("o", { public_address := some "O" })] }

/-- A proof-of-work oracle satisfied exactly at nonce 3. -/
def C10pv : Chain.Block → Bool := fun b => b.pow == 3

/-- A block whose search starts at nonce 0. -/
def C10block : Chain.Block :=
  { prev_hash := 0, block_id := 0, raward_to := 0, pages := [], transactions := [],
    timestamp := 0, target := 0, pow := 0 }

/-- Folding addition of input amounts is the sum of the mapped amounts. -/
theorem foldl_add_amount (l : List Input) (a : Rat) :
    l.foldl (fun acc x => acc + x.amount) a = a + (l.map (fun x => x.amount)).sum := by
  induction l generalizing a with
  | nil => simp
  | cons x xs ih => simp [ih, add_assoc]

/-- C4 (amended): Page::validate returns Ok exactly when at least one input
belongs to the page's site, the input total equals cost + fee with
cost = data_length / PAGE_CHUNK_SIZE, and the number of data_hashes equals
the ceiling of the cost; the source checks that some input belongs to the
site, not that exactly one does. -/
theorem C4_amended (p : Page) (inputs : List Input) :
    p.validate inputs = .Ok ↔
      (∃ x ∈ inputs, x.address = p.site)
      ∧ (inputs.map (fun x => x.amount)).sum = p.cost + p.fee
      ∧ p.data_hashes.length = (⌈p.cost⌉).toNat := by
  have hany : (inputs.any fun x => x.address == p.site) = true
      ↔ ∃ x ∈ inputs, x.address = p.site := by
    simp [List.any_eq_true]
  unfold Page.validate
  rw [foldl_add_amount, zero_add]
  by_cases h1 : (inputs.any fun x => x.address == p.site) = true
  · rw [if_neg (not_not_intro h1)]
    by_cases h2 : (inputs.map fun x => x.amount).sum = p.cost + p.fee
    · rw [if_neg (not_not_intro h2)]
      by_cases h3 : p.data_hashes.length = (⌈p.cost⌉).toNat
      · rw [if_neg (not_not_intro h3)]
        exact iff_of_true rfl ⟨hany.mp h1, h2, h3⟩
      · rw [if_pos h3]
        exact iff_of_false (by decide) (fun h => h3 h.2.2)
    · rw [if_pos h2]
      exact iff_of_false (by decide) (fun h => h2 h.2.1)
  · rw [if_pos h1]
    exact iff_of_false (by decide) (fun h => h1 (hany.mpr h.1))

/-- C4 (counterexample): a one-megabyte page funded by two inputs of its own
site passes Page::validate with Ok although not exactly one input belongs to
the site. -/
theorem C4_counterexample :
    Page.validate C4page C4inputs = .Ok
    ∧ (C4inputs.filter (fun x => x.address == C4page.site)).length = 2
    ∧ ¬ (C4inputs.filter (fun x => x.address == C4page.site)).length = 1 := by
  refine ⟨?_, by decide, by decide⟩
  rw [Page.validate]
  norm_num [C4page, C4inputs, Page.cost, PAGE_CHUNK_SIZE]

/-- C6: Block::as_bytes fails with BlockTooLarge exactly when the bincode
serialization of the block exceeds 16 MiB, and succeeds with the serialized
bytes exactly when it is at most 16 MiB. -/
theorem C6_theorem (b : Chain.Block) :
    (b.as_bytes = Except.error Chain.Error.BlockTooLarge ↔ 16 * 1024 * 1024 < b.serializedSize)
    ∧ (b.as_bytes = Except.ok b.serializedSize ↔ b.serializedSize ≤ 16 * 1024 * 1024) := by
  unfold Chain.Block.as_bytes Chain.BLOCK_SIZE
  split_ifs with h
  · constructor
    · exact ⟨fun _ => h, fun _ => rfl⟩
    · constructor
      · intro hcontra; cases hcontra
      · intro hle; omega
  · constructor
    · constructor
      · intro hcontra; cases hcontra
      · intro hlt; omega
    · exact ⟨fun _ => by omega, fun _ => rfl⟩

/-- C7: validate_content returns Negative whenever the header amount or fee
is negative; with both non-negative the result follows the signature
verification, and it is always Ok, Negative, Wallet BadSignature or
Wallet BadKey. -/
theorem C7_theorem (verify : Transaction → WalletValidationResult) (t : Transaction) :
    (t.header.amount < 0 → Transaction.validate_content verify t = .Negative)
    ∧ (t.header.transaction_fee < 0 → Transaction.validate_content verify t = .Negative)
    ∧ (0 ≤ t.header.amount → 0 ≤ t.header.transaction_fee →
        (verify t = .Ok → Transaction.validate_content verify t = .Ok)
        ∧ (verify t = .BadKey → Transaction.validate_content verify t = .Wallet .BadKey)
        ∧ (verify t = .BadSignature →
            Transaction.validate_content verify t = .Wallet .BadSignature))
    ∧ (Transaction.validate_content verify t = .Ok
        ∨ Transaction.validate_content verify t = .Negative
        ∨ Transaction.validate_content verify t = .Wallet .BadSignature
        ∨ Transaction.validate_content verify t = .Wallet .BadKey) := by
  unfold Transaction.validate_content
  refine ⟨fun h => by rw [if_pos h], fun h => ?_, fun h1 h2 => ?_, ?_⟩
  · by_cases ha : t.header.amount < 0
    · rw [if_pos ha]
    · rw [if_neg ha, if_pos h]
  · rw [if_neg (not_lt.mpr h1), if_neg (not_lt.mpr h2)]
    exact ⟨fun hv => by rw [hv], fun hv => by rw [hv], fun hv => by rw [hv]⟩
  · by_cases ha : t.header.amount < 0
    · rw [if_pos ha]; right; left; rfl
    · rw [if_neg ha]
      by_cases hf : t.header.transaction_fee < 0
      · rw [if_pos hf]; right; left; rfl
      · rw [if_neg hf]
        cases hv : verify t
        · left; rfl
        · right; right; right; rfl
        · right; right; left; rfl

/-- C7 (witness): the spec's scenario 5, a transfer of amount -1.6, is
rejected as Negative. -/
theorem C7_witness : Transaction.validate_content C7verify C7tx = .Negative :=
  (C7_theorem C7verify C7tx).1 (by norm_num [C7tx])

/-- C1 (counterexample): a Page with empty content and zero fee, queried at
its own site (the sender), is folded successfully even though its id does not
exceed the status watermark: the sender deduction, replay check and watermark
update are all skipped because cost + fee = 0, so the fold does not return
None although id ≤ max_id. -/
theorem C1_counterexample :
    C1demoPage.id ≤ C1demoStatus.max_id
    ∧ C1demoPage.cost + C1demoPage.fee = 0
    ∧ Page.update C1demoPage C1demoPage.site C1demoStatus false = some C1demoStatus := by
  refine ⟨by decide, ?_, ?_⟩
  · norm_num [C1demoPage, Page.cost, PAGE_CHUNK_SIZE]
  · norm_num [Page.update, Page.update_wallet_status, C1demoPage, C1demoStatus,
      Page.cost, PAGE_CHUNK_SIZE]

/-- C1 (amended): when the queried address is the sender, the Transfer fold
deducts amount + fee, fails exactly when id ≤ max_id and otherwise sets the
watermark; the Page fold behaves the same way with cost + fee provided
cost + fee > 0, while for cost + fee ≤ 0 the deduction, replay check and
watermark update are skipped and the fold always succeeds; and the
block-level fold returns none as soon as any contained transfer or page
fold returns none. -/
theorem C1_amended :
    (∀ (t : Transfer) (address : Hash) (s : WalletStatus) (w : Bool),
      address = t.from_address →
        (t.update_wallet_status address s w = none ↔ t.id ≤ s.max_id)
        ∧ (s.max_id < t.id →
            t.update_wallet_status address s w =
              some { balance := s.balance - (t.amount + t.fee)
                       + (if address = t.to_address then t.amount else 0)
                       + (if w then t.fee else 0),
                     max_id := t.id }))
    ∧ (∀ (p : Page) (address : Hash) (s : WalletStatus) (w : Bool),
      address = p.site →
        (0 < p.cost + p.fee →
          (p.update address s w = none ↔ p.id ≤ s.max_id)
          ∧ (s.max_id < p.id →
              p.update address s w =
                some { balance := s.balance - (p.cost + p.fee) + (if w then p.fee else 0),
                       max_id := p.id }))
        ∧ (p.cost + p.fee ≤ 0 →
            p.update address s w =
              some { s with balance := s.balance + (if w then p.fee else 0) }))
    ∧ (∀ (b : Lib.Block) (address : Hash) (s : WalletStatus)
        (ts1 : List Transfer) (t : Transfer) (ts2 : List Transfer) (s1 : WalletStatus),
        b.transfers = ts1 ++ t :: ts2 →
        ts1.foldlM (fun acc x => x.update_wallet_status address acc (b.raward_to == address))
            (b.rewardApplied address s) = some s1 →
        t.update_wallet_status address s1 (b.raward_to == address) = none →
        b.update_wallet_status address s = none)
    ∧ (∀ (b : Lib.Block) (address : Hash) (s : WalletStatus) (sT : WalletStatus)
        (ps1 : List Page) (p : Page) (ps2 : List Page) (s2 : WalletStatus),
        b.pages = ps1 ++ p :: ps2 →
        b.transfers.foldlM
            (fun acc x => x.update_wallet_status address acc (b.raward_to == address))
            (b.rewardApplied address s) = some sT →
        ps1.foldlM (fun acc x => x.update address acc (b.raward_to == address)) sT = some s2 →
        p.update address s2 (b.raward_to == address) = none →
        b.update_wallet_status address s = none) := by
  refine ⟨?_, ?_, ?_, ?_⟩
  · intro t address s w h
    subst h
    constructor
    · by_cases hid : t.id ≤ s.max_id <;> simp [Transfer.update_wallet_status, hid]
    · intro hlt
      have hid : ¬ t.id ≤ s.max_id := by omega
      simp only [Transfer.update_wallet_status, if_pos rfl, hid, if_false, Option.map_some]
      split_ifs with h1 h2 <;> simp_all
  · intro p address s w h
    subst h
    constructor
    · intro hpos
      constructor
      · by_cases hid : p.id ≤ s.max_id <;>
          simp [Page.update, Page.update_wallet_status, hpos, hid]
      · intro hlt
        have hid : ¬ p.id ≤ s.max_id := by omega
        simp [Page.update, Page.update_wallet_status, hpos, hid]
        split_ifs with h1 <;> simp_all
    · intro hle
      have hneg : ¬ ((0 : Rat) < p.cost + p.fee) := not_lt.mpr hle
      simp [Page.update, Page.update_wallet_status, hneg]
      split_ifs with h1 <;> simp_all
  · intro b address s ts1 t ts2 s1 hsplit hpre hfail
    have hscrut : List.foldlM
        (fun acc x => x.update_wallet_status address acc (b.raward_to == address))
        (b.rewardApplied address s) b.transfers = none := by
      rw [hsplit, List.foldlM_append, hpre]
      simp [List.foldlM, hfail]
    unfold Lib.Block.update_wallet_status
    rw [hscrut]
  · intro b address s sT ps1 p ps2 s2 hsplit hT hpre hfail
    have hpages : List.foldlM
        (fun acc x => x.update address acc (b.raward_to == address)) sT b.pages = none := by
      rw [hsplit, List.foldlM_append, hpre]
      simp [List.foldlM, hfail]
    unfold Lib.Block.update_wallet_status
    rw [hT]
    exact hpages

/-- C1 (witness): the amended fold contract evaluated at concrete inputs: a
transfer of 4 with fee 1 from the queried sender (block winner) leaves -4 and
watermark 1; a one-megabyte zero-fee page charges its site exactly 1; and a
block whose only transfer replays id 0 aborts the whole block fold. -/
theorem C1_witness :
    Transfer.update_wallet_status C1demoTransfer 5 { balance := 0, max_id := 0 } true
      = some { balance := -4, max_id := 1 }
    ∧ Page.update C1demoPage2 7 { balance := 0, max_id := 0 } false
      = some { balance := -1, max_id := 1 }
    ∧ Lib.Block.update_wallet_status C1demoBlock 5 { balance := 0, max_id := 0 } = none := by
  refine ⟨?_, ?_, ?_⟩
  · have h := (C1_amended.1 C1demoTransfer 5 { balance := 0, max_id := 0 } true rfl).2
      (by decide)
    rw [h]
    norm_num [C1demoTransfer]
  · have hpos : (0 : Rat) < C1demoPage2.cost + C1demoPage2.fee := by
      norm_num [C1demoPage2, Page.cost, PAGE_CHUNK_SIZE]
    have h := ((C1_amended.2.1 C1demoPage2 7 { balance := 0, max_id := 0 } false rfl).1
      hpos).2 (by decide)
    rw [h]
    norm_num [C1demoPage2, Page.cost, PAGE_CHUNK_SIZE]
  · exact C1_amended.2.2.1 C1demoBlock 5 { balance := 0, max_id := 0 } [] C1demoFailT []
      (Lib.Block.rewardApplied C1demoBlock 5 { balance := 0, max_id := 0 }) rfl rfl rfl

/-- Folding empty reward blocks accumulates exactly the block reward. -/
theorem C8_replicate_fold (a : Hash) : ∀ (n : Nat) (s : WalletStatus),
    List.foldlM (fun acc b => Lib.Block.update_wallet_status b a acc)
      s (List.replicate n { raward_to := a, transfers := [], pages := [] })
      = some { s with balance := s.balance + n * 10 } := by
  intro n
  induction n with
  | zero => intro s; simp [List.foldlM]
  | succ n ih =>
    intro s
    rw [List.replicate_succ]
    have hupd : Lib.Block.update_wallet_status
        { raward_to := a, transfers := [], pages := [] } a s
        = some { s with balance := s.balance + 10 } := by
      simp [Lib.Block.update_wallet_status, Lib.Block.rewardApplied,
        Lib.Block.calculate_reward, List.foldlM]
    simp only [List.foldlM, hupd, Option.bind_eq_bind, Option.some_bind]
    rw [ih]
    have hbal : s.balance + 10 + (n : Rat) * 10 = s.balance + ((n + 1 : Nat) : Rat) * 10 := by
      push_cast
      ring
    rw [hbal]

/-- C8: the block-level fold credits the reward recipient with the constant
block reward 10 on top of any transaction effects, so folding n empty blocks
won by the same address yields balance n * 10. -/
theorem C8_theorem :
    (∀ (b : Lib.Block) (a : Hash) (s : WalletStatus),
        b.raward_to = a → b.transfers = [] → b.pages = [] →
        b.update_wallet_status a s = some { s with balance := s.balance + 10 })
    ∧ (∀ (n : Nat) (a : Hash),
        Lib.foldWallet (List.replicate n { raward_to := a, transfers := [], pages := [] }) a
          = some { balance := (n : Rat) * 10, max_id := 0 }) := by
  constructor
  · intro b a s h1 h2 h3
    simp [Lib.Block.update_wallet_status, Lib.Block.rewardApplied,
      Lib.Block.calculate_reward, h1, h2, h3, List.foldlM]
  · intro n a
    unfold Lib.foldWallet
    rw [C8_replicate_fold]
    norm_num

/-- C8 (witness): a single empty block won by address 5 pays it 10, and
mining three such blocks solo pays 30, the spec's scenario 1. -/
theorem C8_witness :
    Lib.Block.update_wallet_status C8block 5 { balance := 0, max_id := 0 }
      = some { balance := 10, max_id := 0 }
    ∧ Lib.foldWallet (List.replicate 3 C8block) 5 = some { balance := 30, max_id := 0 } := by
  constructor
  · have h := C8_theorem.1 C8block 5 { balance := 0, max_id := 0 } rfl rfl rfl
    rw [h]
    norm_num
  · have h := C8_theorem.2 3 5
    norm_num [C8block] at h ⊢
    exact h

/-- C9: registering an unknown address with an origin records it and sends a
KnownNode packet carrying the address to exactly the confirmed peers (those
with a known public_address) other than the origin, leaving the connection
table unchanged; registering a known address sends nothing and changes
nothing. -/
theorem C9_theorem (m : Net.ConnectionManager) (address origin : String) :
    (address ∉ m.known_nodes →
      (m.register_node address (some origin)).1.known_nodes = address :: m.known_nodes
      ∧ (m.register_node address (some origin)).1.connections = m.connections
      ∧ (∀ peer pkt, (peer, pkt) ∈ (m.register_node address (some origin)).2 ↔
          pkt = Net.Packet.KnownNode address ∧ peer ≠ origin
          ∧ ∃ conn, (peer, conn) ∈ m.connections ∧ conn.public_address.isSome = true))
    ∧ (address ∈ m.known_nodes → m.register_node address (some origin) = (m, [])) := by
  constructor
  · intro h
    rw [Net.ConnectionManager.register_node, if_neg h]
    refine ⟨rfl, rfl, ?_⟩
    intro peer pkt
    simp only [Net.ConnectionManager.send_to, List.mem_map, List.mem_filter,
      Bool.and_eq_true, bne_iff_ne, Prod.mk.injEq]
    constructor
    · rintro ⟨⟨a, c⟩, ⟨hmem, hsome, hne⟩, ha, hp⟩
      subst ha
      exact ⟨hp.symm, hne, c, hmem, hsome⟩
    · rintro ⟨hp, hne, c, hmem, hsome⟩
      exact ⟨(peer, c), ⟨hmem, hsome, hne⟩, rfl, hp.symm⟩
  · intro h
    rw [Net.ConnectionManager.register_node, if_pos h]

/-- C9 (witness): registering the fresh address new at the demo manager,
learned from origin o, records it, keeps the connection table and sends the
KnownNode packet to the confirmed non-origin peer p1 but not to the origin o
nor to the unconfirmed peer p2. -/
theorem C9_witness :
    (C9manager.register_node "new" (some "o")).1.known_nodes = ["new", "k"]
    ∧ (C9manager.register_node "new" (some "o")).1.connections = C9manager.connections
    ∧ ("p1", Net.Packet.KnownNode "new") ∈ (C9manager.register_node "new" (some "o")).2
    ∧ ¬ ("o", Net.Packet.KnownNode "new") ∈ (C9manager.register_node "new" (some "o")).2
    ∧ ¬ ("p2", Net.Packet.KnownNode "new") ∈ (C9manager.register_node "new" (some "o")).2 := by
  have h := (C9_theorem C9manager "new" "o").1 (by decide)
  refine ⟨h.1, h.2.1, ?_, ?_, ?_⟩
  · exact (h.2.2 "p1" (Net.Packet.KnownNode "new")).2
      ⟨rfl, by decide, { public_address := some "P1" }, by decide, rfl⟩
  · intro hmem
    have := (h.2.2 "o" (Net.Packet.KnownNode "new")).1 hmem
    exact this.2.1 rfl
  · intro hmem
    obtain ⟨-, -, conn, hc, hsome⟩ := (h.2.2 "p2" (Net.Packet.KnownNode "new")).1 hmem
    have hnone : conn = { public_address := none } := by
      simp only [C9manager, List.mem_cons, List.not_mem_nil, or_false,
        Prod.mk.injEq] at hc
      rcases hc with ⟨h1, -⟩ | ⟨-, h2⟩ | ⟨h3, -⟩
      · exact absurd h1 (by decide)
      · exact h2
      · exact absurd h3 (by decide)
    rw [hnone] at hsome
    cases hsome

/-- C10: whenever some nonce at or above the starting pow satisfies the
proof-of-work check and the fuel covers the distance to it, mine_block
returns the input block with only its pow replaced by the least valid nonce
at or above the start, and that block passes the check. -/
theorem C10_theorem (pv : Chain.Block → Bool) :
    ∀ (fuel : Nat) (b : Chain.Block) (n : Nat),
      b.pow ≤ n → pv (b.setPow n) = true → n - b.pow ≤ fuel →
      ∃ m, b.pow ≤ m ∧ m ≤ n ∧ pv (b.setPow m) = true
        ∧ (∀ k, b.pow ≤ k → k < m → pv (b.setPow k) = false)
        ∧ Chain.mine_block pv fuel b = b.setPow m := by
  intro fuel
  induction fuel with
  | zero =>
    intro b n h1 h2 h3
    have hn : n = b.pow := by omega
    subst hn
    have hb : pv b = true := h2
    refine ⟨b.pow, Nat.le_refl _, Nat.le_refl _, h2, ?_, ?_⟩
    · intro k hk hk2
      omega
    · rw [Chain.mine_block, if_pos hb]
      rfl
  | succ f ih =>
    intro b n h1 h2 h3
    by_cases hb : pv b = true
    · refine ⟨b.pow, Nat.le_refl _, h1, hb, ?_, ?_⟩
      · intro k hk hk2
        omega
      · rw [Chain.mine_block, if_pos hb]
        rfl
    · have hbne : b.pow ≠ n := by
        intro he
        rw [← he] at h2
        exact hb h2
      have hlt : b.pow < n := lt_of_le_of_ne h1 hbne
      obtain ⟨m, hm1, hm2, hm3, hm4, hm5⟩ :=
        ih (b.setPow (b.pow + 1)) n (by simp [Chain.Block.setPow]; omega) h2
          (by simp [Chain.Block.setPow]; omega)
      refine ⟨m, ?_, hm2, hm3, ?_, ?_⟩
      · simp only [Chain.Block.setPow] at hm1
        omega
      · intro k hk hkm
        rcases Nat.eq_or_lt_of_le hk with he | hlt2
        · rw [← he]
          exact Bool.eq_false_iff.mpr hb
        · exact hm4 k (by simp [Chain.Block.setPow]; omega) hkm
      · rw [Chain.mine_block, if_neg hb]
        exact hm5

/-- C10 (witness): with a check satisfied exactly at nonce 3 and fuel 3, the
miner returns the demo block unchanged except for pow = 3, and the result
passes the check. -/
theorem C10_witness :
    Chain.mine_block C10pv 3 C10block = C10block.setPow 3
    ∧ C10pv (Chain.mine_block C10pv 3 C10block) = true := by
  obtain ⟨m, hm1, hm2, hm3, hm4, hm5⟩ :=
    C10_theorem C10pv 3 C10block 3 (by decide) (by decide) (by decide)
  have hm : m = 3 := by
    simp only [C10pv, Chain.Block.setPow] at hm3
    simpa using hm3
  subst hm
  exact ⟨hm5, by rw [hm5]; exact hm3⟩

/-- The running maximum of the longest_branch scan is the fold of max over
the remaining branches. -/
theorem longestLoop_snd (l : List Chain.BlockChainBranch) :
    ∀ (i : Nat) (idx : Option Nat) (m : Nat),
      (Chain.longestLoop l i idx m).2 = l.foldl (fun a b => max a b.top_index) m := by
  induction l with
  | nil => intro i idx m; rfl
  | cons b rest ih =>
    intro i idx m
    by_cases h : m ≤ b.top_index
    · simp only [Chain.longestLoop, if_pos h, List.foldl_cons]
      rw [ih, max_eq_right h]
    · simp only [Chain.longestLoop, if_neg h, List.foldl_cons]
      rw [ih, max_eq_left (Nat.le_of_not_le h)]

/-- The fold of max never drops below its seed. -/
theorem le_foldl_max_top (l : List Chain.BlockChainBranch) :
    ∀ (m : Nat), m ≤ l.foldl (fun a b => max a b.top_index) m := by
  induction l with
  | nil => intro m; exact Nat.le_refl m
  | cons b rest ih =>
    intro m
    exact le_trans (Nat.le_max_left _ _) (ih _)

/-- Every branch's top_index is bounded by the fold of max. -/
theorem mem_le_foldl_max_top (l : List Chain.BlockChainBranch) :
    ∀ (m : Nat) (b : Chain.BlockChainBranch), b ∈ l →
      b.top_index ≤ l.foldl (fun a x => max a x.top_index) m := by
  induction l with
  | nil => intro m b hb; cases hb
  | cons x rest ih =>
    intro m b hb
    rcases List.mem_cons.mp hb with rfl | hb'
    · exact le_trans (Nat.le_max_right _ _) (le_foldl_max_top rest _)
    · exact ih _ b hb'

/-- When every remaining branch is strictly below the running maximum, the
longest_branch scan keeps its accumulator. -/
theorem longestLoop_stay (l : List Chain.BlockChainBranch) :
    ∀ (i : Nat) (idx : Option Nat) (m : Nat),
      (∀ b ∈ l, b.top_index < m) → Chain.longestLoop l i idx m = (idx, m) := by
  induction l with
  | nil => intro i idx m _; rfl
  | cons b rest ih =>
    intro i idx m h
    have hb : b.top_index < m := h b (List.mem_cons_self _ _)
    simp only [Chain.longestLoop, if_neg (not_le.mpr hb)]
    exact ih (i + 1) idx m (fun b' hb' => h b' (List.mem_cons_of_mem _ hb'))

/-- When some remaining branch reaches the running maximum, the scan returns
the absolute position of the last branch attaining the final maximum, and
every branch after it is strictly below that maximum. -/
theorem longestLoop_found (l : List Chain.BlockChainBranch) :
    ∀ (i : Nat) (idx : Option Nat) (m : Nat),
      (∃ b ∈ l, m ≤ b.top_index) →
      ∃ k b, l[k]? = some b
        ∧ (Chain.longestLoop l i idx m).1 = some (i + k)
        ∧ b.top_index = (Chain.longestLoop l i idx m).2
        ∧ ∀ j b', k < j → l[j]? = some b' → b'.top_index < b.top_index := by
  induction l with
  | nil => intro i idx m h; simp at h
  | cons hd rest ih =>
    intro i idx m h
    by_cases hh : m ≤ hd.top_index
    · simp only [Chain.longestLoop, if_pos hh]
      by_cases hex : ∃ x ∈ rest, hd.top_index ≤ x.top_index
      · obtain ⟨k, b, h1, h2, h3, h4⟩ := ih (i + 1) (some i) hd.top_index hex
        have h1' : (hd :: rest)[k + 1]? = some b := by simpa using h1
        have h2' : (Chain.longestLoop rest (i + 1) (some i) hd.top_index).1
            = some (i + (k + 1)) := by
          rw [h2]
          congr 1
          omega
        have h4' : ∀ (j : Nat) (b' : Chain.BlockChainBranch), k + 1 < j
            → (hd :: rest)[j]? = some b' → b'.top_index < b.top_index := by
          intro j b' hj hb'
          cases j with
          | zero => omega
          | succ j' => exact h4 j' b' (by omega) (by simpa using hb')
        exact ⟨k + 1, b, h1', h2', h3, h4'⟩
      · push_neg at hex
        have hstay := longestLoop_stay rest (i + 1) (some i) hd.top_index hex
        have h2' : (Chain.longestLoop rest (i + 1) (some i) hd.top_index).1
            = some (i + 0) := by
          rw [hstay]
          rfl
        have h3' : hd.top_index
            = (Chain.longestLoop rest (i + 1) (some i) hd.top_index).2 := by
          rw [hstay]
        have h4' : ∀ (j : Nat) (b' : Chain.BlockChainBranch), 0 < j
            → (hd :: rest)[j]? = some b' → b'.top_index < hd.top_index := by
          intro j b' hj hb'
          cases j with
          | zero => omega
          | succ j' =>
            have hb'' : rest[j']? = some b' := by simpa using hb'
            exact hex b' (List.getElem?_mem hb'')
        exact ⟨0, hd, List.getElem?_cons_zero, h2', h3', h4'⟩
    · have hex : ∃ x ∈ rest, m ≤ x.top_index := by
        obtain ⟨b, hb, hmb⟩ := h
        rcases List.mem_cons.mp hb with rfl | hb'
        · exact absurd hmb hh
        · exact ⟨b, hb', hmb⟩
      obtain ⟨k, b, h1, h2, h3, h4⟩ := ih (i + 1) idx m hex
      simp only [Chain.longestLoop, if_neg hh]
      have h1' : (hd :: rest)[k + 1]? = some b := by simpa using h1
      have h2' : (Chain.longestLoop rest (i + 1) idx m).1 = some (i + (k + 1)) := by
        rw [h2]
        congr 1
        omega
      have h4' : ∀ (j : Nat) (b' : Chain.BlockChainBranch), k + 1 < j
          → (hd :: rest)[j]? = some b' → b'.top_index < b.top_index := by
        intro j b' hj hb'
        cases j with
        | zero => omega
        | succ j' => exact h4 j' b' (by omega) (by simpa using hb')
      exact ⟨k + 1, b, h1', h2', h3, h4'⟩

/-- C3 (amended): for a nonempty branch set, longest_branch selects a branch
attaining the greatest top_index, and when several branches tie at the
maximum it selects the last of them in creation order: every branch after
the selected one is strictly shorter. -/
theorem C3_amended (c : Chain.BlockChain) (hne : c.branches ≠ []) :
    ∃ (i : Nat) (b : Chain.BlockChainBranch),
      Chain.longestBranchIndex c.branches = some i
      ∧ c.branches[i]? = some b
      ∧ b.top_index = Chain.longestTop c.branches
      ∧ (∀ (j : Nat) (b' : Chain.BlockChainBranch),
          c.branches[j]? = some b' → b'.top_index ≤ b.top_index)
      ∧ (∀ (j : Nat) (b' : Chain.BlockChainBranch),
          i < j → c.branches[j]? = some b' → b'.top_index < b.top_index) := by
  have hex : ∃ b ∈ c.branches, 0 ≤ b.top_index := by
    obtain ⟨hd, tl, hcons⟩ := List.exists_cons_of_ne_nil hne
    exact ⟨hd, by rw [hcons]; exact List.mem_cons_self _ _, Nat.zero_le _⟩
  obtain ⟨k, b, h1, h2, h3, h4⟩ := longestLoop_found c.branches 0 none 0 hex
  have hidx : Chain.longestBranchIndex c.branches = some k := by
    unfold Chain.longestBranchIndex
    rw [h2, Nat.zero_add]
  have htop : b.top_index = Chain.longestTop c.branches := by
    rw [h3, longestLoop_snd]
    rfl
  have hle : ∀ (j : Nat) (b' : Chain.BlockChainBranch),
      c.branches[j]? = some b' → b'.top_index ≤ b.top_index := by
    intro j b' hb'
    have hmem : b' ∈ c.branches := List.getElem?_mem hb'
    rw [h3, longestLoop_snd]
    exact mem_le_foldl_max_top c.branches 0 b' hmem
  exact ⟨k, b, hidx, h1, htop, hle, h4⟩

/-- C3 (counterexample): with two branches tied at top_index 7,
longest_branch picks the second (position 1), not the first-created one. -/
theorem C3_counterexample :
    C3branchA.top_index = C3branchB.top_index
    ∧ Chain.longestBranchIndex C3chain.branches = some 1
    ∧ Chain.longestBranchIndex C3chain.branches ≠ some 0 := by
  refine ⟨rfl, rfl, by decide⟩

/-- C3 (witness): on a one-branch chain the selection theorem pins the
selected position to 0. -/
theorem C3_witness : Chain.longestBranchIndex C3demoChain.branches = some 0 := by
  obtain ⟨i, b, h1, -, -, -, -⟩ := C3_amended C3demoChain (List.cons_ne_nil _ _)
  have h2 : (some i : Option Nat) = some 0 :=
    h1.symm.trans (rfl : Chain.longestBranchIndex C3demoChain.branches = some 0)
  obtain rfl : i = 0 := Option.some.inj h2
  exact h1

/-- Erasing branches whose paths all differ from the head's path leaves the
head in place. -/
theorem foldl_removeFirst_cons (rs : List Chain.BlockChainBranch) :
    ∀ (a : Chain.BlockChainBranch) (t : List Chain.BlockChainBranch),
      (∀ b ∈ rs, b.path ≠ a.path) →
      rs.foldl (fun bs b => Chain.removeFirst bs b.path) (a :: t)
        = a :: rs.foldl (fun bs b => Chain.removeFirst bs b.path) t := by
  induction rs with
  | nil => intro a t _; rfl
  | cons r rs' ih =>
    intro a t hne
    have hra : r.path ≠ a.path := hne r (List.mem_cons_self _ _)
    have hstep : Chain.removeFirst (a :: t) r.path = a :: Chain.removeFirst t r.path := by
      rw [Chain.removeFirst, if_neg (fun he => hra he.symm)]
    simp only [List.foldl_cons, hstep]
    exact ih a (Chain.removeFirst t r.path) (fun b hb => hne b (List.mem_cons_of_mem _ hb))

/-- With pairwise distinct branch paths, erasing every branch matching a
predicate from the original list leaves exactly the branches that fail the
predicate, in their original order. -/
theorem foldl_removeFirst_filter (p : Chain.BlockChainBranch → Bool) :
    ∀ (l : List Chain.BlockChainBranch),
      (l.map (fun b => b.path)).Nodup →
      (l.filter p).foldl (fun bs b => Chain.removeFirst bs b.path) l
        = l.filter (fun b => ! p b) := by
  intro l
  induction l with
  | nil => intro _; rfl
  | cons a t ih =>
    intro hnd
    rw [List.map_cons, List.nodup_cons] at hnd
    obtain ⟨hna, hnd'⟩ := hnd
    by_cases hp : p a = true
    · rw [List.filter_cons_of_pos hp, List.foldl_cons]
      have hstep : Chain.removeFirst (a :: t) a.path = t := by
        rw [Chain.removeFirst, if_pos rfl]
      rw [hstep, ih hnd', List.filter_cons_of_neg (by simp [hp])]
    · have hpa : p a = false := Bool.eq_false_iff.mpr hp
      rw [List.filter_cons_of_neg (by simp [hpa]), List.filter_cons_of_pos (by simp [hpa])]
      have hne : ∀ b ∈ t.filter p, b.path ≠ a.path := by
        intro b hb he
        exact hna (he ▸ List.mem_map_of_mem (fun x => x.path) (List.mem_of_mem_filter hb))
      rw [foldl_removeFirst_cons (t.filter p) a t hne, ih hnd']

/-- C5: with at least one branch and pairwise distinct branch directories,
prune_branches keeps exactly the branches whose top_index is within 10 of
the longest branch's top_index, unchanged and in order, and removes from
disk exactly the directories of the branches that are further behind. -/
theorem C5_theorem (c : Chain.BlockChain) (_hne : c.branches ≠ [])
    (hnd : (c.branches.map (fun b => b.path)).Nodup) :
    c.prune_branches.1.branches
      = c.branches.filter
          (fun b => decide (Chain.longestTop c.branches - 10 ≤ b.top_index))
    ∧ c.prune_branches.2
      = (c.branches.filter
          (fun b => decide (b.top_index < Chain.longestTop c.branches - 10))).map
            (fun b => b.path) := by
  unfold Chain.BlockChain.prune_branches
  by_cases h : Chain.longestTop c.branches ≤ 10
  · rw [if_pos h]
    have hz : Chain.longestTop c.branches - 10 = 0 := Nat.sub_eq_zero_of_le h
    constructor
    · rw [hz]
      exact (List.filter_eq_self.mpr (fun a _ => by simp)).symm
    · rw [hz]
      have : c.branches.filter (fun b => decide (b.top_index < 0)) = [] :=
        List.filter_eq_nil_iff.mpr (fun a _ => by simp)
      rw [this, List.map_nil]
  · rw [if_neg h]
    constructor
    · show (c.branches.filter
            (fun b => decide (b.top_index < Chain.longestTop c.branches - 10))).foldl
              (fun bs b => Chain.removeFirst bs b.path) c.branches
        = c.branches.filter
            (fun b => decide (Chain.longestTop c.branches - 10 ≤ b.top_index))
      rw [foldl_removeFirst_filter
        (fun b => decide (b.top_index < Chain.longestTop c.branches - 10)) c.branches hnd]
      refine List.filter_congr (fun a _ => ?_)
      by_cases hc : a.top_index < Chain.longestTop c.branches - 10
      · simp [hc, not_le.mpr hc]
      · simp [hc, Nat.le_of_not_lt hc]
    · rfl

/-- C5 (witness): on the demo chain with tops 30, 25 and 5, pruning keeps
the branches within 10 of the top and deletes the directory of the branch
at 5. -/
theorem C5_witness :
    C5chain.prune_branches.1.branches
      = C5chain.branches.filter
          (fun b => decide (Chain.longestTop C5chain.branches - 10 ≤ b.top_index))
    ∧ C5chain.prune_branches.2
      = (C5chain.branches.filter
          (fun b => decide (b.top_index < Chain.longestTop C5chain.branches - 10))).map
            (fun b => b.path) :=
  C5_theorem C5chain (List.cons_ne_nil _ _) (by decide)

/-- When every branch lets the scan continue, BlockChain::add ends with
NoValidBranches. -/
theorem addLoop_all_next (block : Chain.Block) :
    ∀ (bs : List Chain.BlockChainBranch) (i : Nat),
      (∀ (k : Nat) (b : Chain.BlockChainBranch), bs[k]? = some b →
        Chain.addStep block b = .next) →
      Chain.addLoop block bs i = some .noValidBranches := by
  intro bs
  induction bs with
  | nil => intro i _; rfl
  | cons b rest ih =>
    intro i h
    have hb : Chain.addStep block b = .next := h 0 b List.getElem?_cons_zero
    have hrest : ∀ (k : Nat) (b' : Chain.BlockChainBranch), rest[k]? = some b' →
        Chain.addStep block b' = .next := by
      intro k b' hk
      exact h (k + 1) b' (by simpa using hk)
    by_cases h1 : block.block_id = b.top_index + 1 ∧ b.addOk block = true
    · rw [Chain.addStep, if_pos h1] at hb
      cases hb
    · by_cases h2 : b.top_index < block.block_id
      · simp only [Chain.addLoop, if_neg h1, if_pos h2]
        exact ih (i + 1) hrest
      · cases h3 : b.blockAt block.block_id with
        | none =>
          rw [Chain.addStep, if_neg h1, if_neg h2, h3] at hb
          cases hb
        | some stored =>
          by_cases h4 : stored = block
          · simp only [Chain.addStep, if_neg h1, if_neg h2, h3, if_pos h4] at hb
            cases hb
          · by_cases h5 : b.validateOk block = true
            · simp only [Chain.addStep, if_neg h1, if_neg h2, h3, if_neg h4,
                if_pos h5] at hb
              cases hb
            · simp only [Chain.addLoop, if_neg h1, if_neg h2, h3, if_neg h4, if_neg h5]
              exact ih (i + 1) hrest

/-- The scan is decided by the first branch that does not continue: the
result is that branch's step rendered at its absolute position. -/
theorem addLoop_decides (block : Chain.Block) :
    ∀ (bs : List Chain.BlockChainBranch) (i k : Nat) (b : Chain.BlockChainBranch),
      bs[k]? = some b → Chain.addStep block b ≠ .next →
      Chain.prefixNext block bs k →
      Chain.addLoop block bs i = Chain.stepResult (Chain.addStep block b) (i + k) := by
  intro bs
  induction bs with
  | nil => intro i k b hk _ _; simp at hk
  | cons hd rest ih =>
    intro i k b hk hne hpre
    cases k with
    | zero =>
      have hb : hd = b := by simpa using hk
      subst hb
      by_cases h1 : block.block_id = hd.top_index + 1 ∧ hd.addOk block = true
      · simp only [Chain.addLoop, Chain.addStep, if_pos h1, Chain.stepResult]
      · by_cases h2 : hd.top_index < block.block_id
        · exfalso
          apply hne
          rw [Chain.addStep, if_neg h1, if_pos h2]
        · cases h3 : hd.blockAt block.block_id with
          | none =>
            simp only [Chain.addLoop, Chain.addStep, if_neg h1, if_neg h2, h3,
              Chain.stepResult]
          | some stored =>
            by_cases h4 : stored = block
            · simp only [Chain.addLoop, Chain.addStep, if_neg h1, if_neg h2, h3,
                if_pos h4, Chain.stepResult]
            · by_cases h5 : hd.validateOk block = true
              · simp only [Chain.addLoop, Chain.addStep, if_neg h1, if_neg h2, h3,
                  if_neg h4, if_pos h5, Chain.stepResult, Nat.add_zero]
              · exfalso
                apply hne
                simp only [Chain.addStep, if_neg h1, if_neg h2, h3, if_neg h4, if_neg h5]
    | succ k' =>
      have hhd : Chain.addStep block hd = .next :=
        hpre 0 hd (Nat.succ_pos _) List.getElem?_cons_zero
      have hk' : rest[k']? = some b := by simpa using hk
      have hpre' : Chain.prefixNext block rest k' := by
        intro j b' hj hb'
        exact hpre (j + 1) b' (by omega) (by simpa using hb')
      have harith : i + (k' + 1) = (i + 1) + k' := by omega
      rw [harith]
      by_cases h1 : block.block_id = hd.top_index + 1 ∧ hd.addOk block = true
      · rw [Chain.addStep, if_pos h1] at hhd
        cases hhd
      · by_cases h2 : hd.top_index < block.block_id
        · simp only [Chain.addLoop, if_neg h1, if_pos h2]
          exact ih (i + 1) k' b hk' hne hpre'
        · cases h3 : hd.blockAt block.block_id with
          | none =>
            rw [Chain.addStep, if_neg h1, if_neg h2, h3] at hhd
            cases hhd
          | some stored =>
            by_cases h4 : stored = block
            · simp only [Chain.addStep, if_neg h1, if_neg h2, h3, if_pos h4] at hhd
              cases hhd
            · by_cases h5 : hd.validateOk block = true
              · simp only [Chain.addStep, if_neg h1, if_neg h2, h3, if_neg h4,
                  if_pos h5] at hhd
                cases hhd
              · simp only [Chain.addLoop, if_neg h1, if_neg h2, h3, if_neg h4, if_neg h5]
                exact ih (i + 1) k' b hk' hne hpre'

/-- Either every branch lets the scan continue, or some first branch
decides. -/
theorem addLoop_cases (block : Chain.Block) :
    ∀ (bs : List Chain.BlockChainBranch),
      (∀ (k : Nat) (b : Chain.BlockChainBranch), bs[k]? = some b →
        Chain.addStep block b = .next)
      ∨ (∃ (k : Nat) (b : Chain.BlockChainBranch), bs[k]? = some b
          ∧ Chain.addStep block b ≠ .next ∧ Chain.prefixNext block bs k) := by
  intro bs
  induction bs with
  | nil =>
    left
    intro k b hk
    simp at hk
  | cons hd rest ih =>
    by_cases hh : Chain.addStep block hd = .next
    · rcases ih with hall | ⟨k, b, h1, h2, h3⟩
      · left
        intro k b hk
        cases k with
        | zero =>
          have hb : hd = b := by simpa using hk
          exact hb ▸ hh
        | succ k' => exact hall k' b (by simpa using hk)
      · right
        refine ⟨k + 1, b, by simpa using h1, h2, ?_⟩
        intro j b' hj hb'
        cases j with
        | zero =>
          have hb : hd = b' := by simpa using hb'
          exact hb ▸ hh
        | succ j' => exact h3 j' b' (by omega) (by simpa using hb')
    · right
      exact ⟨0, hd, List.getElem?_cons_zero, hh,
        fun j b' hj _ => absurd hj (Nat.not_lt_zero _)⟩

/-- C2 (amended): BlockChain::add makes a single pass over the branches in
order; the first branch that does not let the scan continue decides the
result: a branch accepting the append at top_index + 1 gives Ok, a branch
at or above the block's id holding an equal stored block gives Duplicate,
one the block validates against becomes the fork candidate, a missing
stored block panics, and if every branch lets the scan continue the result
is NoValidBranches. Append attempts are not tried first across all
branches: an earlier deciding branch wins over a later accepting one. -/
theorem C2_amended (c : Chain.BlockChain) (block : Chain.Block) :
    (c.add block = some .ok ↔
      ∃ (k : Nat) (b : Chain.BlockChainBranch), c.branches[k]? = some b
        ∧ Chain.addStep block b = .accept ∧ Chain.prefixNext block c.branches k)
    ∧ (c.add block = some .duplicate ↔
      ∃ (k : Nat) (b : Chain.BlockChainBranch), c.branches[k]? = some b
        ∧ Chain.addStep block b = .dup ∧ Chain.prefixNext block c.branches k)
    ∧ (∀ (k : Nat), c.add block = some (.fork k) ↔
      ∃ (b : Chain.BlockChainBranch), c.branches[k]? = some b
        ∧ Chain.addStep block b = .forkHere ∧ Chain.prefixNext block c.branches k)
    ∧ (c.add block = some .noValidBranches ↔
      ∀ (k : Nat) (b : Chain.BlockChainBranch), c.branches[k]? = some b →
        Chain.addStep block b = .next)
    ∧ (c.add block = none ↔
      ∃ (k : Nat) (b : Chain.BlockChainBranch), c.branches[k]? = some b
        ∧ Chain.addStep block b = .panic ∧ Chain.prefixNext block c.branches k) := by
  have decides : ∀ (k : Nat) (b : Chain.BlockChainBranch), c.branches[k]? = some b →
      Chain.addStep block b ≠ .next → Chain.prefixNext block c.branches k →
      c.add block = Chain.stepResult (Chain.addStep block b) k := by
    intro k b h1 h2 h3
    have h := addLoop_decides block c.branches 0 k b h1 h2 h3
    rw [Nat.zero_add] at h
    exact h
  have hall_result : (∀ (k : Nat) (b : Chain.BlockChainBranch), c.branches[k]? = some b →
      Chain.addStep block b = .next) → c.add block = some .noValidBranches :=
    fun hall => addLoop_all_next block c.branches 0 hall
  refine ⟨⟨?_, ?_⟩, ⟨?_, ?_⟩, fun k => ⟨?_, ?_⟩, ⟨?_, ?_⟩, ⟨?_, ?_⟩⟩
  · intro h
    rcases addLoop_cases block c.branches with hall | ⟨k, b, h1, h2, h3⟩
    · rw [hall_result hall] at h
      cases h
    · have hd := decides k b h1 h2 h3
      rw [h] at hd
      cases hstep : Chain.addStep block b with
      | next => exact absurd hstep h2
      | accept => exact ⟨k, b, h1, hstep, h3⟩
      | dup => rw [hstep] at hd; cases hd
      | forkHere => rw [hstep] at hd; cases hd
      | panic => rw [hstep] at hd; cases hd
  · rintro ⟨k, b, h1, hstep, h3⟩
    have hd := decides k b h1 (by rw [hstep]; intro hc; cases hc) h3
    rw [hd, hstep]
    rfl
  · intro h
    rcases addLoop_cases block c.branches with hall | ⟨k, b, h1, h2, h3⟩
    · rw [hall_result hall] at h
      cases h
    · have hd := decides k b h1 h2 h3
      rw [h] at hd
      cases hstep : Chain.addStep block b with
      | next => exact absurd hstep h2
      | accept => rw [hstep] at hd; cases hd
      | dup => exact ⟨k, b, h1, hstep, h3⟩
      | forkHere => rw [hstep] at hd; cases hd
      | panic => rw [hstep] at hd; cases hd
  · rintro ⟨k, b, h1, hstep, h3⟩
    have hd := decides k b h1 (by rw [hstep]; intro hc; cases hc) h3
    rw [hd, hstep]
    rfl
  · intro h
    rcases addLoop_cases block c.branches with hall | ⟨k', b, h1, h2, h3⟩
    · rw [hall_result hall] at h
      cases h
    · have hd := decides k' b h1 h2 h3
      rw [h] at hd
      cases hstep : Chain.addStep block b with
      | next => exact absurd hstep h2
      | accept => rw [hstep] at hd; cases hd
      | dup => rw [hstep] at hd; cases hd
      | forkHere =>
        rw [hstep] at hd
        have hk : k = k' := by
          have := Option.some.inj hd
          cases this
          rfl
        subst hk
        exact ⟨b, h1, hstep, h3⟩
      | panic => rw [hstep] at hd; cases hd
  · rintro ⟨b, h1, hstep, h3⟩
    have hd := decides k b h1 (by rw [hstep]; intro hc; cases hc) h3
    rw [hd, hstep]
    rfl
  · intro h
    rcases addLoop_cases block c.branches with hall | ⟨k, b, h1, h2, h3⟩
    · exact hall
    · have hd := decides k b h1 h2 h3
      rw [h] at hd
      cases hstep : Chain.addStep block b with
      | next => exact absurd hstep h2
      | accept => rw [hstep] at hd; cases hd
      | dup => rw [hstep] at hd; cases hd
      | forkHere => rw [hstep] at hd; cases hd
      | panic => rw [hstep] at hd; cases hd
  · intro hall
    exact hall_result hall
  · intro h
    rcases addLoop_cases block c.branches with hall | ⟨k, b, h1, h2, h3⟩
    · rw [hall_result hall] at h
      cases h
    · have hd := decides k b h1 h2 h3
      rw [h] at hd
      cases hstep : Chain.addStep block b with
      | next => exact absurd hstep h2
      | accept => rw [hstep] at hd; cases hd
      | dup => rw [hstep] at hd; cases hd
      | forkHere => rw [hstep] at hd; cases hd
      | panic => exact ⟨k, b, h1, hstep, h3⟩
  · rintro ⟨k, b, h1, hstep, h3⟩
    have hd := decides k b h1 (by rw [hstep]; intro hc; cases hc) h3
    rw [hd, hstep]
    rfl

/-- C2 (counterexample): the chain state whose first branch already stores
the block (so top_index is at or above the block's id) and whose second
branch would accept the append returns Duplicate, not Ok: the append
attempt of the second branch is never tried first as the claimed two-phase
resolution order would require. -/
theorem C2_counterexample :
    (C2block.block_id = C2branchApp.top_index + 1 ∧ C2branchApp.addOk C2block = true)
    ∧ C2chain.add C2block = some .duplicate
    ∧ ¬ C2chain.add C2block = some .ok := by
  refine ⟨⟨rfl, rfl⟩, ?_, ?_⟩
  · rfl
  · intro h
    cases h
